import Mathlib

/-!
Verification of the external-process orchestration and result-caching layer of
the android-mcp-toolkit MCP server.

The source is JavaScript (Node).  The embedding below mirrors, definition by
definition, the functions of `src/index.js` (conversion cache and conversion
tool handler) and of the logcat module (process invocation, pid resolution,
logcat argument building, tool handlers).  JavaScript `Map` objects preserve
insertion order, so a `Map` is embedded as an association list whose head is
the oldest (first-inserted) entry; `Map.set` on an existing key overwrites the
value in place, `Map.delete` removes the entry, and `map.keys().next().value`
is the key of the head entry.
-/

/-! ## The conversion cache (src/index.js lines 56-83)

`const conversionCache = new Map();`  Keys and values are strings (hex digests
and XML text).  The cache is the list of (key, value) entries in insertion
order, oldest first. -/

abbrev Cache := List (String × String)

/-- `conversionCache.get(key)`: value of the first entry with this key. -/
def jsGet (k : String) : Cache → Option String
  | [] => none
  | (k', v') :: rest => if k' = k then some v' else jsGet k rest

/-- `conversionCache.set(key, value)`: overwrite in place if the key is
present, otherwise append a fresh entry at the (freshest) end. -/
def jsSet (k v : String) : Cache → Cache
  | [] => [(k, v)]
  | (k', v') :: rest => if k' = k then (k, v) :: rest else (k', v') :: jsSet k v rest

/-- `conversionCache.delete(key)`: remove the entry with this key. -/
def jsDelete (k : String) : Cache → Cache
  | [] => []
  | (k', v') :: rest => if k' = k then rest else (k', v') :: jsDelete k rest

/-- `conversionCache.keys().next().value`: the oldest key, `undefined` on an
empty map. -/
def oldestKey : Cache → Option String
  | [] => none
  | (k0, _) :: _ => some k0

/-- `const MAX_CACHE_SIZE = 32;` (src/index.js line 57). -/
def MAX_CACHE_SIZE : Nat := 32

/-- `getCached(key)` (src/index.js lines 66-73): look the key up; `!existing`
is true for `undefined` (miss) and for the empty string, and in both cases the
function returns `null` without touching the map.  On a hit the entry is
deleted and re-inserted to refresh the LRU order, and the value is returned.
The result is the returned value (`none` for JavaScript `null`) paired with
the updated cache. -/
def getCached (k : String) (c : Cache) : Option String × Cache :=
  match jsGet k c with
  | none => (none, c)
  | some existing =>
      if existing = "" then (none, c)
      else (some existing, jsSet k existing (jsDelete k c))

/-- `setCache(key, value)` (src/index.js lines 75-83): if the map already
holds `MAX_CACHE_SIZE` or more entries, delete the oldest key (skipped when
that key is falsy, i.e. the empty string, or when the map is empty), then
`set` the new entry. -/
def setCache (k v : String) (c : Cache) : Cache :=
  let c1 :=
    if MAX_CACHE_SIZE ≤ c.length then
      match oldestKey c with
      | none => c
      | some k0 => if k0 = "" then c else jsDelete k0 c
    else c
  jsSet k v c1

/-- Fold a list of (key, value) pairs into the cache with `setCache`. -/
def insertAll (ps : List (String × String)) (c : Cache) : Cache :=
  ps.foldl (fun c p => setCache p.1 p.2 c) c

/-- A cache operation: a `get` (only its effect on the map matters here) or a
`put`. -/
inductive CacheOp where
  | get (k : String)
  | put (k v : String)

/-- Effect of one operation on the cache state. -/
def applyOp (c : Cache) : CacheOp → Cache
  | .get k => (getCached k c).2
  | .put k v => setCache k v c

/-- Effect of a sequence of operations. -/
def applyOps (c : Cache) (ops : List CacheOp) : Cache :=
  ops.foldl applyOp c

/-! ## Conversion options and the cache key (src/index.js lines 30-64, 109-116)

The handler builds `options = { floatPrecision, fillBlack, xmlTag, tint }` from
the schema-validated request.  `floatPrecision` is validated by
`z.number().int().min(0).max(6).default(2)`, hence `Fin 7`; `tint` is an
optional string and is `undefined` when absent. -/

structure ConvOptions where
  floatPrecision : Fin 7
  fillBlack : Bool
  xmlTag : Bool
  tint : Option String
deriving DecidableEq

/-- Lower-case hexadecimal digit, as produced by JavaScript number
formatting inside `\u00XX` escapes. -/
def hexDigit (n : Nat) : Char :=
  if n < 10 then Char.ofNat (48 + n) else Char.ofNat (97 + (n - 10))

/-- Escape of one character inside a JSON string literal, following the
`QuoteJSONString` algorithm used by `JSON.stringify`: `"` and backslash get a
backslash, the named control characters map to two-character escapes, all
other code points below 0x20 map to `\u00XX`, and everything else is passed
through.  (Lean strings hold Unicode scalar values, so the lone-surrogate
case of the JavaScript algorithm cannot arise.) -/
def jsonEscapeChar (c : Char) : List Char :=
  if c = '"' then ['\\', '"']
  else if c = '\\' then ['\\', '\\']
  else if c = '\x08' then ['\\', 'b']
  else if c = '\x0c' then ['\\', 'f']
  else if c = '\n' then ['\\', 'n']
  else if c = '\r' then ['\\', 'r']
  else if c = '\t' then ['\\', 't']
  else if c.toNat < 32 then ['\\', 'u', '0', '0', hexDigit (c.toNat / 16), hexDigit (c.toNat % 16)]
  else [c]

/-- Escaped body of a JSON string literal. -/
def jsonEscape (cs : List Char) : List Char := cs.flatMap jsonEscapeChar

/-- A complete JSON string literal (quotes included). -/
def jsonQuote (s : String) : List Char := '"' :: jsonEscape s.data ++ ['"']

/-- `JSON.stringify` of a boolean. -/
def boolChars (b : Bool) : List Char := if b then "true".data else "false".data

/-- `JSON.stringify` of a non-negative integer. -/
def natChars (n : Nat) : List Char := (toString n).data

/-- `JSON.stringify(options)` for the options object built at
src/index.js lines 109-114: object-literal key order is preserved and an
`undefined` property (`tint` absent) is omitted. -/
def stringifyOptionsChars (o : ConvOptions) : List Char :=
  "\x7b\"floatPrecision\":".data ++ natChars o.floatPrecision.val
  ++ ",\"fillBlack\":".data ++ boolChars o.fillBlack
  ++ ",\"xmlTag\":".data ++ boolChars o.xmlTag
  ++ (match o.tint with
      | none => []
      | some t => ",\"tint\":".data ++ jsonQuote t)
  ++ ['\x7d']

def stringifyOptions (o : ConvOptions) : String := String.mk (stringifyOptionsChars o)

/-- The serialized options object with its leading brace removed (proof
scaffolding for the key-input injectivity analysis). -/
def optionsAfterBrace (o : ConvOptions) : List Char :=
  "\"floatPrecision\":".data ++ natChars o.floatPrecision.val
  ++ ",\"fillBlack\":".data ++ boolChars o.fillBlack
  ++ ",\"xmlTag\":".data ++ boolChars o.xmlTag
  ++ (match o.tint with
      | none => []
      | some t => ",\"tint\":".data ++ jsonQuote t)
  ++ ['\x7d']

/-- Everything of the serialized object after the leading brace and before
the escaped tint body, tint opening quote included (proof scaffolding). -/
def tintPrefix (o : ConvOptions) : List Char :=
  "\"floatPrecision\":".data ++ natChars o.floatPrecision.val
  ++ ",\"fillBlack\":".data ++ boolChars o.fillBlack
  ++ ",\"xmlTag\":".data ++ boolChars o.xmlTag
  ++ ",\"tint\":".data ++ ['"']

/-- The byte string fed to the SHA-256 hash in `makeCacheKey` (src/index.js
lines 59-64): `hash.update(svg); hash.update(JSON.stringify(options))`
digests the concatenation of the two strings. -/
def makeCacheKeyInput (svg : String) (options : ConvOptions) : String :=
  svg ++ stringifyOptions options

/-- `makeCacheKey(svg, options)`: the source applies the SHA-256 hex digest
to `makeCacheKeyInput`.  The digest itself is kept abstract as a parameter;
statements about key separation assume it injective, which is exactly the
spec's reading of the 256-bit hash. -/
def makeCacheKey (digest : String → String) (svg : String) (options : ConvOptions) : String :=
  digest (makeCacheKeyInput svg options)

/-! ## The conversion tool handler (src/index.js lines 107-158)

Only the part of the handler relevant to the cache claims is embedded: the
SVG text is taken as already loaded (`loadSvg`), and the optional output-file
write and the fire-and-forget logging message are I/O frame effects with no
influence on the returned XML.  The vendored `svg2vectordrawable` converter
is the opaque pure function `convert`; it returns a string, so the handler
check `!xml || typeof xml !== 'string'` reduces to the string being empty. -/

structure ConvReq where
  svg : String
  options : ConvOptions
  cache : Bool

structure ConvOutcome where
  result : Except String String
  converted : Bool

/-- One call of the `convert-svg-to-android-drawable` handler against the
current cache: look up only when `params.cache` is set; on a miss (or when
the lookup was skipped) convert, throw if the converter produced no XML, and
store the fresh XML with `setCache`.  `converted` records whether the
converter was invoked. -/
def handleConvert (digest : String → String) (convert : String → ConvOptions → String)
    (req : ConvReq) (c : Cache) : ConvOutcome × Cache :=
  let key := makeCacheKey digest req.svg req.options
  let looked := if req.cache then getCached key c else (none, c)
  match looked with
  | (some xml, c1) => (⟨Except.ok xml, false⟩, c1)
  | (none, c1) =>
      let xml := convert req.svg req.options
      if xml = "" then (⟨Except.error "Conversion did not produce XML", true⟩, c1)
      else (⟨Except.ok xml, true⟩, setCache key xml c1)

/-- Run a sequence of conversion requests against one shared cache,
collecting the per-request outcomes. -/
def runConversions (digest : String → String) (convert : String → ConvOptions → String) :
    List ConvReq → Cache → List ConvOutcome × Cache
  | [], c => ([], c)
  | r :: rs, c =>
      let rc := handleConvert digest convert r c
      let rest := runConversions digest convert rs rc.2
      (rc.1 :: rest.1, rest.2)

/-- The cache-free meaning of one conversion request: convert, and fail
exactly when the converter produced no XML. -/
def specConvResult (convert : String → ConvOptions → String) (svg : String)
    (o : ConvOptions) : Except String String :=
  if convert svg o = "" then Except.error "Conversion did not produce XML"
  else Except.ok (convert svg o)

/-- Every cache entry was produced by the handler: its key is the cache key
of some request and its value is the (non-empty) converter output for that
same request.  Holds trivially for the initial empty cache. -/
def GoodCache (digest : String → String) (convert : String → ConvOptions → String)
    (c : Cache) : Prop :=
  ∀ kv ∈ c, ∃ s o, kv.1 = makeCacheKey digest s o ∧ kv.2 = convert s o ∧ convert s o ≠ ""

/-! ## The adb module (logcat source file)

`runAdbCommand` spawns `adb` through `execFile`.  The spawn itself is the
external effect; it is abstracted as a function from the argument vector and
timeout to an outcome, either captured standard output or a failure carrying
`error.message` and the optional captured `error.stderr`. -/

inductive ExecOutcome where
  | success (stdout : String)
  | failure (errMsg : String) (stderr : Option String)

abbrev Exec := List String → Nat → ExecOutcome

/-- JavaScript `trimEnd()`: strip trailing whitespace. -/
def jsTrimEnd (s : String) : String :=
  String.mk (s.data.reverse.dropWhile Char.isWhitespace).reverse

/-- JavaScript `trim()`: strip leading and trailing whitespace. -/
def jsTrim (s : String) : String :=
  jsTrimEnd (String.mk (s.data.dropWhile Char.isWhitespace))

/-- The error message built in the catch block of `runAdbCommand` (logcat
source lines 125-132): `` [`adb ${args.join(' ')} failed`, error.message] ``
filtered by `Boolean` and joined with `': '`, then `' | stderr: '` plus the
trimmed stderr text appended only when that text is non-empty.  The first
component is never empty, so `filter(Boolean)` only drops an empty
`error.message`. -/
def adbFailureMessage (args : List String) (errMsg : String) (stderr : Option String) : String :=
  let st := match stderr with
    | some s => jsTrim s
    | none => ""
  let base := "adb " ++ String.intercalate " " args ++ " failed"
  let message := if errMsg = "" then base else base ++ ": " ++ errMsg
  if st = "" then message else message ++ " | stderr: " ++ st

/-- `runAdbCommand(args, timeoutMs)` (logcat source lines 118-133): on
success return `stdout.trimEnd()`; on any failure throw the single message
built by `adbFailureMessage`. -/
def runAdbCommand (exec : Exec) (args : List String) (timeoutMs : Nat) : Except String String :=
  match exec args timeoutMs with
  | .success stdout => Except.ok (jsTrimEnd stdout)
  | .failure e st => Except.error (adbFailureMessage args e st)

/-- `String.prototype.split(/\s+/)`: the text split at maximal whitespace
runs; a leading run contributes a leading empty token and a trailing run a
trailing empty token.  `inWs` records whether the previous character was
part of a whitespace run whose token has already been emitted. -/
def splitWsGo : List Char → List Char → Bool → List String
  | [], cur, _ => [String.mk cur.reverse]
  | c :: rest, cur, inWs =>
      if c.isWhitespace then
        if inWs then splitWsGo rest [] true
        else String.mk cur.reverse :: splitWsGo rest [] true
      else splitWsGo rest (c :: cur) false

def splitWs (s : String) : List String := splitWsGo s.data [] false

/-- `resolvePid(packageName, timeoutMs)` (logcat source lines 135-142): run
`adb shell pidof -s <packageName>`, take the first token of the output for
which JavaScript `Boolean` is true (the first non-empty token of the
whitespace split), and fail with the dedicated not-found message when there
is none. -/
def resolvePid (exec : Exec) (packageName : String) (timeoutMs : Nat) : Except String String :=
  match runAdbCommand exec ["shell", "pidof", "-s", packageName] timeoutMs with
  | .error m => .error m
  | .ok output =>
      match (splitWs output).find? (fun t => t != "") with
      | some pid => .ok pid
      | none => .error ("Could not resolve pid for package " ++ packageName)

/-- Logcat priority levels, `z.enum(['V','D','I','W','E','F','S'])`. -/
inductive Priority where
  | V | D | I | W | E | F | S
deriving DecidableEq

def Priority.toStr : Priority → String
  | .V => "V"
  | .D => "D"
  | .I => "I"
  | .W => "W"
  | .E => "E"
  | .F => "F"
  | .S => "S"

/-- The zod `.default('V')` on the priority field: an absent priority
resolves to the most verbose level before the handler runs. -/
def resolvePriority (p : Option Priority) : Priority := p.getD Priority.V

/-- Schema-validated parameters of `read-adb-logcat`, after defaults are
applied (`priority` defaults to `V`, `maxLines` to 200, `timeoutMs` to
5000). -/
structure LogcatParams where
  packageName : Option String
  pid : Option String
  tag : Option String
  priority : Priority
  maxLines : Nat
  timeoutMs : Nat

/-- JavaScript truthiness of an optional string field: `null`, `undefined`
and the empty string are falsy. -/
def optTruthy (o : Option String) : Option String :=
  match o with
  | some s => if s = "" then none else some s
  | none => none

/-- `buildLogcatArgs(params, pid)` (logcat source lines 144-154):
`['logcat','-d','-t', String(maxLines)]`, then `--pid=<pid>` when `pid` is
truthy, then `-s <tag>:<priority>` when `tag` is truthy. -/
def buildLogcatArgs (params : LogcatParams) (pid : Option String) : List String :=
  let args := ["logcat", "-d", "-t", toString params.maxLines]
  let args := args ++ (match optTruthy pid with
    | some p => ["--pid=" ++ p]
    | none => [])
  args ++ (match optTruthy params.tag with
    | some tag => ["-s", tag ++ ":" ++ params.priority.toStr]
    | none => [])

/-- The `read-adb-logcat` handler (logcat source lines 165-197), reduced to
the text payload it returns: use the explicit pid when truthy, otherwise
resolve it from the package name when one is given; build the argument list;
run adb; substitute the placeholder message when the output is empty.  All
failures propagate. -/
def readLogcatHandler (exec : Exec) (params : LogcatParams) : Except String String :=
  let pidR : Except String (Option String) :=
    match optTruthy params.pid with
    | some p => Except.ok (some p)
    | none =>
        match optTruthy params.packageName with
        | some name => (resolvePid exec name params.timeoutMs).map some
        | none => Except.ok none
  pidR.bind fun pid =>
    (runAdbCommand exec (buildLogcatArgs params pid) params.timeoutMs).map fun output =>
      if output = "" then "Logcat returned no lines." else output

/-- The `get-pid-by-package` handler: returns the resolved pid text. -/
def getPidByPackageHandler (exec : Exec) (packageName : String) (timeoutMs : Nat) :
    Except String String :=
  resolvePid exec packageName timeoutMs

/-- Schema-validated parameters of `check-anr-state`. -/
structure AnrParams where
  maxLines : Nat
  timeoutMs : Nat

/-- The `check-anr-state` handler (logcat source lines 264-303), reduced to
its text payload.  Each of the three adb invocations sits in its own
`try/catch`: a failure message is pushed as the section text instead of
being rethrown, and the joined sections are always returned as a success. -/
def checkAnrStateHandler (exec : Exec) (params : AnrParams) : Except String String :=
  let s1 := match runAdbCommand exec
      ["logcat", "-d", "-t", toString params.maxLines, "ActivityManager:E", "*:S"]
      params.timeoutMs with
    | .ok amLogs =>
        if amLogs = "" then "ActivityManager (recent): no entries."
        else "ActivityManager (recent):\n" ++ amLogs
    | .error m => "ActivityManager: " ++ m
  let s2 := match runAdbCommand exec ["shell", "ls", "-l", "/data/anr/traces.txt"]
      params.timeoutMs with
    | .ok stat => "traces.txt stat:\n" ++ stat
    | .error m => "traces.txt stat: " ++ m
  let s3 := match runAdbCommand exec ["shell", "tail", "-n", "200", "/data/anr/traces.txt"]
      params.timeoutMs with
    | .ok tl =>
        if tl = "" then "traces.txt tail: empty."
        else "traces.txt tail (200 lines):\n" ++ tl
    | .error m => "traces.txt tail: " ++ m
  Except.ok (String.intercalate "\n\n" [s1, s2, s3])

/-! ## Concrete data used in counterexamples and witnesses -/

/-- A full cache: 32 distinct entries `(k0, v0) .. (k31, v31)`. -/
def cexCache32 : Cache := (List.range 32).map (fun i => ("k" ++ toString i, "v" ++ toString i))

/-- 32 pairwise-distinct fresh keys `a0 .. a31`. -/
def cexFresh32 : List (String × String) := (List.range 32).map (fun i => ("a" ++ toString i, "w"))

/-- 33 pairwise-distinct keys `b0 .. b32`. -/
def cexKeys33 : List (String × String) := (List.range 33).map (fun i => ("b" ++ toString i, "x"))

/-- An external-process oracle on which every invocation fails. -/
def cexBadExec : Exec := fun _ _ => ExecOutcome.failure "boom" none

/-- An oracle whose every invocation succeeds with the output of the
Identifier Resolver example. -/
def cexPidExec : Exec := fun _ _ => ExecOutcome.success "  4821 \n"

/-- An oracle whose every invocation succeeds with empty output. -/
def cexEmptyExec : Exec := fun _ _ => ExecOutcome.success ""

/-! ### Basic lemmas about the JavaScript map embedding -/

theorem jsGet_mem {k : String} {v : String} : ∀ {c : Cache}, jsGet k c = some v → (k, v) ∈ c := by
  intro c h
  induction c with
  | nil => simp [jsGet] at h
  | cons p rest ih =>
      obtain ⟨k', v'⟩ := p
      by_cases hk : k' = k
      · simp [jsGet, hk] at h
        subst hk h
        exact List.mem_cons_self _ _
      · simp [jsGet, hk] at h
        exact List.mem_cons_of_mem _ (ih h)

theorem jsGet_eq_none_of_not_mem {k : String} : ∀ {c : Cache}, k ∉ c.map Prod.fst → jsGet k c = none := by
  intro c h
  induction c with
  | nil => rfl
  | cons p rest ih =>
      obtain ⟨k', v'⟩ := p
      simp only [List.map_cons, List.mem_cons] at h
      push_neg at h
      have hne : ¬ (k' = k) := fun hh => h.1 hh.symm
      simp [jsGet, hne]
      exact ih h.2

theorem jsGet_jsSet_self (k v : String) : ∀ c : Cache, jsGet k (jsSet k v c) = some v := by
  intro c
  induction c with
  | nil => simp [jsSet, jsGet]
  | cons p rest ih =>
      obtain ⟨k', v'⟩ := p
      by_cases hk : k' = k
      · simp [jsSet, hk, jsGet]
      · simp [jsSet, hk, jsGet, ih]

theorem jsGet_jsSet_ne {k k' : String} (hne : k' ≠ k) (v : String) :
    ∀ c : Cache, jsGet k' (jsSet k v c) = jsGet k' c := by
  intro c
  have hne' : ¬ (k = k') := fun h => hne h.symm
  induction c with
  | nil => simp [jsSet, jsGet, hne']
  | cons p rest ih =>
      obtain ⟨k0, v0⟩ := p
      by_cases hk : k0 = k
      · subst hk
        simp [jsSet, jsGet, hne']
      · simp [jsSet, hk, jsGet]
        by_cases hk' : k0 = k'
        · simp [hk']
        · simp [hk', ih]

theorem mem_jsSet {p : String × String} {k v : String} :
    ∀ {c : Cache}, p ∈ jsSet k v c → p = (k, v) ∨ p ∈ c := by
  intro c h
  induction c with
  | nil => simp [jsSet] at h; simp [h]
  | cons q rest ih =>
      obtain ⟨k', v'⟩ := q
      by_cases hk : k' = k
      · simp [jsSet, hk] at h
        rcases h with h | h
        · exact Or.inl h
        · exact Or.inr (List.mem_cons_of_mem _ h)
      · simp [jsSet, hk] at h
        rcases h with h | h
        · exact Or.inr (by simp [h])
        · rcases ih h with h' | h'
          · exact Or.inl h'
          · exact Or.inr (List.mem_cons_of_mem _ h')

theorem mem_jsDelete {p : String × String} {k : String} :
    ∀ {c : Cache}, p ∈ jsDelete k c → p ∈ c := by
  intro c h
  induction c with
  | nil => simp [jsDelete] at h
  | cons q rest ih =>
      obtain ⟨k', v'⟩ := q
      by_cases hk : k' = k
      · simp [jsDelete, hk] at h
        exact List.mem_cons_of_mem _ h
      · simp [jsDelete, hk] at h
        rcases h with h | h
        · simp [h]
        · exact List.mem_cons_of_mem _ (ih h)

theorem jsSet_append_of_mem {k : String} (v : String) :
    ∀ {a : Cache} (b : Cache), k ∈ a.map Prod.fst → jsSet k v (a ++ b) = jsSet k v a ++ b := by
  intro a
  induction a with
  | nil => intro b h; simp at h
  | cons p rest ih =>
      intro b h
      obtain ⟨k0, v0⟩ := p
      by_cases hk : k0 = k
      · simp [jsSet, hk]
      · simp only [List.map_cons, List.mem_cons] at h
        rcases h with h | h
        · exact absurd h.symm hk
        · simp [jsSet, hk, ih b h]

theorem jsSet_append_of_not_mem {k : String} (v : String) :
    ∀ {a : Cache} (b : Cache), k ∉ a.map Prod.fst → jsSet k v (a ++ b) = a ++ jsSet k v b := by
  intro a
  induction a with
  | nil => intro b _; simp
  | cons p rest ih =>
      intro b h
      obtain ⟨k0, v0⟩ := p
      simp only [List.map_cons, List.mem_cons] at h
      push_neg at h
      have hk : ¬ (k0 = k) := fun hh => h.1 hh.symm
      simp [jsSet, hk, ih b h.2]

theorem jsSet_eq_append_of_not_mem {k : String} (v : String) :
    ∀ {c : Cache}, k ∉ c.map Prod.fst → jsSet k v c = c ++ [(k, v)] := by
  intro c h
  have := jsSet_append_of_not_mem (a := c) v [] h
  simpa using this

theorem jsDelete_append_of_not_mem {k : String} :
    ∀ {a : Cache} (b : Cache), k ∉ a.map Prod.fst → jsDelete k (a ++ b) = a ++ jsDelete k b := by
  intro a
  induction a with
  | nil => intro b _; simp
  | cons p rest ih =>
      intro b h
      obtain ⟨k0, v0⟩ := p
      simp only [List.map_cons, List.mem_cons] at h
      push_neg at h
      have hk : ¬ (k0 = k) := fun hh => h.1 hh.symm
      simp [jsDelete, hk, ih b h.2]

theorem jsGet_append_of_not_mem {k : String} :
    ∀ {a : Cache} (b : Cache), k ∉ a.map Prod.fst → jsGet k (a ++ b) = jsGet k b := by
  intro a
  induction a with
  | nil => intro b _; simp
  | cons p rest ih =>
      intro b h
      obtain ⟨k0, v0⟩ := p
      simp only [List.map_cons, List.mem_cons] at h
      push_neg at h
      have hk : ¬ (k0 = k) := fun hh => h.1 hh.symm
      simp [jsGet, hk, ih b h.2]

/-- A cache with distinct keys containing `k` splits around the unique entry
for `k`. -/
theorem cache_split_of_jsGet {k v : String} :
    ∀ {c : Cache}, (c.map Prod.fst).Nodup → jsGet k c = some v →
      ∃ a b, c = a ++ (k, v) :: b ∧ k ∉ a.map Prod.fst ∧ k ∉ b.map Prod.fst := by
  intro c hnd h
  induction c with
  | nil => simp [jsGet] at h
  | cons p rest ih =>
      obtain ⟨k0, v0⟩ := p
      simp only [List.map_cons, List.nodup_cons] at hnd
      by_cases hk : k0 = k
      · subst hk
        simp [jsGet] at h
        subst h
        exact ⟨[], rest, rfl, by simp, hnd.1⟩
      · simp [jsGet, hk] at h
        obtain ⟨a, b, hab, ha, hb⟩ := ih hnd.2 h
        refine ⟨(k0, v0) :: a, b, by simp [hab], ?_, hb⟩
        simp only [List.map_cons, List.mem_cons]
        push_neg
        exact ⟨fun hh => hk hh.symm, ha⟩

theorem length_jsSet (k v : String) :
    ∀ c : Cache, (jsSet k v c).length = if k ∈ c.map Prod.fst then c.length else c.length + 1 := by
  intro c
  induction c with
  | nil => simp [jsSet]
  | cons p rest ih =>
      obtain ⟨k0, v0⟩ := p
      by_cases hk : k0 = k
      · simp [jsSet, hk]
      · have hnk : ¬ (k = k0) := fun hh => hk hh.symm
        by_cases hm : k ∈ rest.map Prod.fst <;>
          simp [jsSet, hk, ih, hnk, hm]

theorem keys_jsSet_subset {k v : String} {c : Cache} {k' : String}
    (h : k' ∈ (jsSet k v c).map Prod.fst) : k' = k ∨ k' ∈ c.map Prod.fst := by
  obtain ⟨p, hp, rfl⟩ := List.mem_map.1 h
  rcases mem_jsSet hp with h' | h'
  · exact Or.inl (by simp [h'])
  · exact Or.inr (List.mem_map.2 ⟨p, h', rfl⟩)

theorem keys_jsDelete_subset {k : String} {c : Cache} {k' : String}
    (h : k' ∈ (jsDelete k c).map Prod.fst) : k' ∈ c.map Prod.fst := by
  obtain ⟨p, hp, rfl⟩ := List.mem_map.1 h
  exact List.mem_map.2 ⟨p, mem_jsDelete hp, rfl⟩

theorem length_jsDelete_le (k : String) :
    ∀ c : Cache, (jsDelete k c).length ≤ c.length := by
  intro c
  induction c with
  | nil => simp [jsDelete]
  | cons p rest ih =>
      obtain ⟨k0, v0⟩ := p
      by_cases hk : k0 = k
      · simp [jsDelete, hk]
      · simp [jsDelete, hk]
        omega

/-! ### The two branches of `setCache` -/

theorem setCache_below_capacity {c : Cache} (h : c.length < MAX_CACHE_SIZE) (k v : String) :
    setCache k v c = jsSet k v c := by
  simp [setCache, Nat.not_le.2 h]

theorem setCache_at_capacity {c : Cache} {k0 v0 : String} {rest : Cache}
    (hc : c = (k0, v0) :: rest) (hlen : MAX_CACHE_SIZE ≤ c.length) (hk0 : k0 ≠ "") (k v : String) :
    setCache k v c = jsSet k v rest := by
  subst hc
  have hlen' : MAX_CACHE_SIZE ≤ rest.length + 1 := by simpa using hlen
  simp [setCache, oldestKey, jsDelete, hk0, hlen']

/-! ### Filling an empty cache (below capacity, fresh keys, `setCache` appends) -/

theorem insertAll_append_of_fresh :
    ∀ (ps : List (String × String)) (c : Cache),
      c.length + ps.length ≤ MAX_CACHE_SIZE →
      (∀ p ∈ ps, p.1 ∉ c.map Prod.fst) →
      (ps.map Prod.fst).Nodup →
      insertAll ps c = c ++ ps := by
  intro ps
  induction ps with
  | nil => intro c _ _ _; simp [insertAll]
  | cons p rest ih =>
      intro c hlen hfresh hnd
      obtain ⟨k, v⟩ := p
      have hlt : c.length < MAX_CACHE_SIZE := by
        simp [List.length_cons] at hlen
        omega
      have hkc : k ∉ c.map Prod.fst := hfresh (k, v) (List.mem_cons_self _ _)
      have hstep : setCache k v c = c ++ [(k, v)] := by
        rw [setCache_below_capacity hlt, jsSet_eq_append_of_not_mem v hkc]
      simp only [List.map_cons, List.nodup_cons] at hnd
      have : insertAll ((k, v) :: rest) c = insertAll rest (setCache k v c) := by
        simp [insertAll]
      rw [this, hstep, ih (c ++ [(k, v)])]
      · simp
      · simp [List.length_append]
        simp [List.length_cons] at hlen
        omega
      · intro q hq
        have hq1 : q.1 ∉ c.map Prod.fst := hfresh q (List.mem_cons_of_mem _ hq)
        have hq2 : q.1 ≠ k := by
          intro hh
          exact hnd.1 (hh ▸ List.mem_map.2 ⟨q, hq, rfl⟩)
        simp [List.map_append, hq1, hq2]
      · exact hnd.2

theorem insertAll_snoc (ps : List (String × String)) (p : String × String) (c : Cache) :
    insertAll (ps ++ [p]) c = setCache p.1 p.2 (insertAll ps c) := by
  simp [insertAll, List.foldl_append]

theorem length_jsDelete_of_mem {k : String} :
    ∀ {c : Cache}, k ∈ c.map Prod.fst → (jsDelete k c).length + 1 = c.length := by
  intro c h
  induction c with
  | nil => simp at h
  | cons p rest ih =>
      obtain ⟨k0, v0⟩ := p
      by_cases hk : k0 = k
      · simp [jsDelete, hk]
      · simp only [List.map_cons, List.mem_cons] at h
        rcases h with h | h
        · exact absurd h.symm hk
        · simp [jsDelete, hk, ih h]

theorem length_jsSet_le (k v : String) (c : Cache) :
    (jsSet k v c).length ≤ c.length + 1 := by
  rw [length_jsSet]
  by_cases hm : k ∈ c.map Prod.fst <;> simp [hm]

/-- All keys of the cache are non-empty strings.  This holds for the real
conversion cache, whose keys are 64-character hex digests. -/
def KeysNonempty (c : Cache) : Prop := ∀ k ∈ c.map Prod.fst, k ≠ ""

/-- The key named by a cache operation. -/
def opKey : CacheOp → String
  | .get k => k
  | .put k _ => k

theorem keysNonempty_jsSet {k v : String} {c : Cache} (hk : k ≠ "")
    (hc : KeysNonempty c) : KeysNonempty (jsSet k v c) := by
  intro k' hk'
  rcases keys_jsSet_subset hk' with h | h
  · exact h ▸ hk
  · exact hc k' h

theorem keysNonempty_jsDelete {k : String} {c : Cache} (hc : KeysNonempty c) :
    KeysNonempty (jsDelete k c) := by
  intro k' hk'
  exact hc k' (keys_jsDelete_subset hk')

theorem applyOp_length_le {c : Cache} (op : CacheOp)
    (hlen : c.length ≤ MAX_CACHE_SIZE) (hne : KeysNonempty c) (hop : opKey op ≠ "") :
    (applyOp c op).length ≤ MAX_CACHE_SIZE ∧ KeysNonempty (applyOp c op) := by
  cases op with
  | get k =>
      simp only [applyOp, getCached]
      cases hjs : jsGet k c with
      | none => exact ⟨hlen, hne⟩
      | some v =>
          by_cases hv : v = ""
          · simp [hv]
            exact ⟨hlen, hne⟩
          · simp [hv]
            constructor
            · have hmem : k ∈ c.map Prod.fst :=
                List.mem_map.2 ⟨(k, v), jsGet_mem hjs, rfl⟩
              have h1 := length_jsDelete_of_mem hmem
              have h2 := length_jsSet_le k v (jsDelete k c)
              omega
            · exact keysNonempty_jsSet hop (keysNonempty_jsDelete hne)
  | put k v =>
      simp only [applyOp, opKey] at hop ⊢
      by_cases hcap : MAX_CACHE_SIZE ≤ c.length
      · cases c with
        | nil => simp [MAX_CACHE_SIZE] at hcap
        | cons p rest =>
            obtain ⟨k0, v0⟩ := p
            have hk0 : k0 ≠ "" := hne k0 (by simp)
            rw [setCache_at_capacity rfl hcap hk0]
            constructor
            · have := length_jsSet_le k v rest
              simp at hlen
              omega
            · refine keysNonempty_jsSet hop ?_
              intro k' hk'
              exact hne k' (by simp [hk'])
      · rw [setCache_below_capacity (Nat.not_le.1 hcap)]
        constructor
        · have := length_jsSet_le k v c
          omega
        · exact keysNonempty_jsSet hop hne

theorem applyOps_length_le :
    ∀ (ops : List CacheOp) (c : Cache),
      c.length ≤ MAX_CACHE_SIZE → KeysNonempty c → (∀ op ∈ ops, opKey op ≠ "") →
      (applyOps c ops).length ≤ MAX_CACHE_SIZE ∧ KeysNonempty (applyOps c ops) := by
  intro ops
  induction ops with
  | nil => intro c h1 h2 _; exact ⟨h1, h2⟩
  | cons op rest ih =>
      intro c h1 h2 h3
      have hop := applyOp_length_le op h1 h2 (h3 op (List.mem_cons_self _ _))
      have : applyOps c (op :: rest) = applyOps (applyOp c op) rest := by
        simp [applyOps]
      rw [this]
      exact ih _ hop.1 hop.2 (fun o ho => h3 o (List.mem_cons_of_mem _ ho))

theorem setCache_at_capacity_falsy {c : Cache} {v0 : String} {rest : Cache}
    (hc : c = ("", v0) :: rest) (hlen : MAX_CACHE_SIZE ≤ c.length) (k v : String) :
    setCache k v c = jsSet k v c := by
  subst hc
  have hlen' : MAX_CACHE_SIZE ≤ rest.length + 1 := by simpa using hlen
  simp [setCache, oldestKey, hlen']

theorem jsSet_around {K k : String} (hkK : k ≠ K) (v vK : String) {a b : Cache}
    (ha : K ∉ a.map Prod.fst) (hb : K ∉ b.map Prod.fst) :
    ∃ a' b', jsSet k v (a ++ (K, vK) :: b) = a' ++ (K, vK) :: b' ∧
      K ∉ a'.map Prod.fst ∧ K ∉ b'.map Prod.fst ∧ b'.length ≤ b.length + 1 := by
  by_cases hm : k ∈ a.map Prod.fst
  · refine ⟨jsSet k v a, b, jsSet_append_of_mem v _ hm, ?_, hb, by omega⟩
    intro hK
    rcases keys_jsSet_subset hK with h | h
    · exact hkK h.symm
    · exact ha h
  · rw [jsSet_append_of_not_mem v _ hm]
    have hKk : ¬ (K = k) := fun h => hkK h.symm
    have : jsSet k v ((K, vK) :: b) = (K, vK) :: jsSet k v b := by
      simp [jsSet, hKk]
    rw [this]
    refine ⟨a, jsSet k v b, rfl, ha, ?_, length_jsSet_le k v b⟩
    intro hK
    rcases keys_jsSet_subset hK with h | h
    · exact hkK h.symm
    · exact hb h

theorem setCache_around {K k : String} (hkK : k ≠ K) (v vK : String) {c1 c2 : Cache}
    (h1 : K ∉ c1.map Prod.fst) (h2 : K ∉ c2.map Prod.fst)
    (hc2 : c2.length + 2 ≤ MAX_CACHE_SIZE) :
    ∃ d1 d2, setCache k v (c1 ++ (K, vK) :: c2) = d1 ++ (K, vK) :: d2 ∧
      K ∉ d1.map Prod.fst ∧ K ∉ d2.map Prod.fst ∧ d2.length ≤ c2.length + 1 := by
  by_cases hcap : MAX_CACHE_SIZE ≤ (c1 ++ (K, vK) :: c2).length
  · have hc1 : c1 ≠ [] := by
      intro h
      subst h
      simp [List.length_cons] at hcap
      omega
    obtain ⟨⟨h1k, h1v⟩, c1', rfl⟩ : ∃ p c1', c1 = p :: c1' := by
      cases c1 with
      | nil => exact absurd rfl hc1
      | cons p c1' => exact ⟨p, c1', rfl⟩
    simp only [List.map_cons, List.mem_cons] at h1
    push_neg at h1
    rw [List.cons_append] at hcap ⊢
    by_cases hfal : h1k = ""
    · subst hfal
      rw [setCache_at_capacity_falsy rfl hcap]
      have := jsSet_around hkK v vK (a := ("", h1v) :: c1') (b := c2) ?_ h2
      · simpa using this
      · simp only [List.map_cons, List.mem_cons]
        push_neg
        exact h1
    · rw [setCache_at_capacity rfl hcap hfal]
      exact jsSet_around hkK v vK h1.2 h2
  · rw [setCache_below_capacity (Nat.not_le.1 hcap)]
    exact jsSet_around hkK v vK h1 h2

theorem insertAll_preserves_entry :
    ∀ (ps : List (String × String)) (c1 c2 : Cache) (K vK : String),
      K ∉ c1.map Prod.fst → K ∉ c2.map Prod.fst →
      c2.length + ps.length + 1 ≤ MAX_CACHE_SIZE →
      (∀ p ∈ ps, p.1 ≠ K) →
      ∃ d1 d2, insertAll ps (c1 ++ (K, vK) :: c2) = d1 ++ (K, vK) :: d2 ∧
        K ∉ d1.map Prod.fst ∧ K ∉ d2.map Prod.fst := by
  intro ps
  induction ps with
  | nil =>
      intro c1 c2 K vK hK1 hK2 _ _
      exact ⟨c1, c2, by simp [insertAll], hK1, hK2⟩
  | cons p ps' ih =>
      intro c1 c2 K vK hK1 hK2 hlen hne
      obtain ⟨k, v⟩ := p
      have hkK : k ≠ K := hne (k, v) (List.mem_cons_self _ _)
      have hc2 : c2.length + 2 ≤ MAX_CACHE_SIZE := by
        simp [List.length_cons] at hlen
        omega
      obtain ⟨d1, d2, hset, hd1, hd2, hd2len⟩ := setCache_around hkK v vK hK1 hK2 hc2
      have hstep : insertAll ((k, v) :: ps') (c1 ++ (K, vK) :: c2)
          = insertAll ps' (setCache k v (c1 ++ (K, vK) :: c2)) := by
        simp [insertAll]
      rw [hstep, hset]
      refine ih d1 d2 K vK hd1 hd2 ?_ (fun q hq => hne q (List.mem_cons_of_mem _ hq))
      simp [List.length_cons] at hlen
      omega

theorem keys_jsSet_of_mem {k : String} (v : String) :
    ∀ {c : Cache}, k ∈ c.map Prod.fst → (jsSet k v c).map Prod.fst = c.map Prod.fst := by
  intro c h
  induction c with
  | nil => simp at h
  | cons p rest ih =>
      obtain ⟨k0, v0⟩ := p
      by_cases hk : k0 = k
      · simp [jsSet, hk]
      · simp only [List.map_cons, List.mem_cons] at h
        rcases h with h | h
        · exact absurd h.symm hk
        · simp [jsSet, hk, ih h]

/-- C2: `setCache` inserts or overwrites, but its eviction trigger is only
the size test `conversionCache.size >= MAX_CACHE_SIZE`: below capacity
nothing is evicted and an overwrite keeps the key order; at capacity the
oldest entry is deleted before every insert, including a put whose key is
already present (the claim is wrong exactly there, see the counterexample).
Amended statement: at capacity the put deletes the oldest entry whether or
not its own key is new; only the oldest key can disappear, and the put key
itself is always present afterwards. -/
theorem setCache_eviction_behavior :
    (∀ (c : Cache) (k v : String), c.length < MAX_CACHE_SIZE →
        jsGet k (setCache k v c) = some v
        ∧ (∀ k', k' ≠ k → jsGet k' (setCache k v c) = jsGet k' c)
        ∧ (k ∈ c.map Prod.fst → (setCache k v c).map Prod.fst = c.map Prod.fst))
    ∧ (∀ (c : Cache) (k v k0 v0 : String) (rest : Cache),
        c = (k0, v0) :: rest → MAX_CACHE_SIZE ≤ c.length →
        (c.map Prod.fst).Nodup → k0 ≠ "" →
        jsGet k (setCache k v c) = some v
        ∧ (∀ k', k' ≠ k → k' ≠ k0 → jsGet k' (setCache k v c) = jsGet k' c)
        ∧ (k0 ≠ k → jsGet k0 (setCache k v c) = none)) := by
  constructor
  · intro c k v hlt
    rw [setCache_below_capacity hlt]
    exact ⟨jsGet_jsSet_self k v c, fun k' hk' => jsGet_jsSet_ne hk' v c,
      fun hm => keys_jsSet_of_mem v hm⟩
  · intro c k v k0 v0 rest hc hcap hnd hk0
    rw [setCache_at_capacity hc hcap hk0]
    subst hc
    simp only [List.map_cons, List.nodup_cons] at hnd
    refine ⟨jsGet_jsSet_self k v rest, ?_, ?_⟩
    · intro k' hk' hk0'
      rw [jsGet_jsSet_ne hk' v rest]
      have : ¬ (k0 = k') := fun h => hk0' h.symm
      simp [jsGet, this]
    · intro hne
      rw [jsGet_jsSet_ne hne v rest]
      exact jsGet_eq_none_of_not_mem hnd.1

/-- Witness for C2 (amended): the full 32-entry cache satisfies the
at-capacity branch, and the evicted key is exactly the oldest one. -/
theorem setCache_eviction_behavior_witness :
    jsGet "k0" (setCache "k5" "w" cexCache32) = none :=
  (setCache_eviction_behavior.2 cexCache32 "k5" "w" "k0" "v0" (cexCache32.tail)
      (by decide) (by decide) (by decide) (by decide)).2.2 (by decide)

/-- C2 counterexample: the claim states that a put of an existing key at
capacity removes no other entry.  In the code, `setCache("k5", ...)` on a
full cache that already holds `k5` deletes the oldest entry `k0` and leaves
only 31 entries. -/
theorem setCache_overwrite_at_capacity_evicts_cex :
    cexCache32.length = MAX_CACHE_SIZE
    ∧ jsGet "k5" cexCache32 = some "v5"
    ∧ jsGet "k0" cexCache32 = some "v0"
    ∧ jsGet "k0" (setCache "k5" "w" cexCache32) = none
    ∧ (setCache "k5" "w" cexCache32).length = MAX_CACHE_SIZE - 1 := by decide

/-- C4: the conversion cache never exceeds 32 entries.  Every sequence of
`get`/`put` operations preserves `size ≤ MAX_CACHE_SIZE` (keys are non-empty
in the real cache, where they are 64-character hex digests), and inserting
33 pairwise-distinct keys into the empty cache leaves exactly 32 entries
with the first-inserted (least-recently-accessed) key evicted. -/
theorem conversionCache_bounded_size :
    (∀ (ops : List CacheOp) (c : Cache),
        c.length ≤ MAX_CACHE_SIZE → KeysNonempty c → (∀ op ∈ ops, opKey op ≠ "") →
        (applyOps c ops).length ≤ MAX_CACHE_SIZE)
    ∧ (∀ (ps : List (String × String)) (q0 : String × String) (qs : List (String × String)),
        ps = q0 :: qs → ps.length = MAX_CACHE_SIZE + 1 → (ps.map Prod.fst).Nodup →
        (∀ p ∈ ps, p.1 ≠ "") →
        (insertAll ps []).length = MAX_CACHE_SIZE
        ∧ jsGet q0.1 (insertAll ps []) = none) := by
  constructor
  · intro ops c h1 h2 h3
    exact (applyOps_length_le ops c h1 h2 h3).1
  · intro ps q0 qs hps hlen hnd hne
    subst hps
    have hqs : qs ≠ [] := by
      intro h
      subst h
      simp [MAX_CACHE_SIZE] at hlen
    obtain ⟨qs', p33, rfl⟩ : ∃ qs' p33, qs = qs' ++ [p33] := by
      rcases List.eq_nil_or_concat qs with h | ⟨qs', p33, h⟩
      · exact absurd h hqs
      · exact ⟨qs', p33, by simpa [List.concat_eq_append] using h⟩
    have hlen' : qs'.length = MAX_CACHE_SIZE - 1 := by
      simp [MAX_CACHE_SIZE] at hlen ⊢
      omega
    have hky : (List.map Prod.fst (q0 :: qs' ++ [p33])).Nodup := hnd
    simp only [List.cons_append, List.map_cons, List.map_append, List.map_cons,
      List.map_nil, List.nodup_cons, List.nodup_append] at hky
    have hq0qs : q0.1 ∉ qs'.map Prod.fst := fun h => hky.1 (by simp [h])
    have hq0p33 : q0.1 ≠ p33.1 := fun h => hky.1 (by simp [h])
    have hp33qs : p33.1 ∉ qs'.map Prod.fst := by
      intro h
      exact hky.2.2.2 h (by simp)
    have hfill : insertAll (q0 :: qs') [] = q0 :: qs' := by
      have := insertAll_append_of_fresh (q0 :: qs') [] ?_ ?_ ?_
      · simpa using this
      · simp [List.length_cons, hlen', MAX_CACHE_SIZE]
      · intro p _
        simp
      · simp only [List.map_cons, List.nodup_cons]
        exact ⟨hq0qs, hky.2.1⟩
    have hsplit : insertAll (q0 :: (qs' ++ [p33])) [] = setCache p33.1 p33.2 (q0 :: qs') := by
      have hassoc : q0 :: (qs' ++ [p33]) = (q0 :: qs') ++ [p33] := by simp
      rw [hassoc, insertAll_snoc, hfill]
    have hcap : MAX_CACHE_SIZE ≤ (q0 :: qs').length := by
      simp [List.length_cons, hlen', MAX_CACHE_SIZE]
    have hq0ne : q0.1 ≠ "" := hne q0 (by simp)
    have hfin : setCache p33.1 p33.2 (q0 :: qs') = qs' ++ [(p33.1, p33.2)] := by
      have hc0 : (q0 :: qs' : Cache) = (q0.1, q0.2) :: qs' := rfl
      rw [setCache_at_capacity hc0 hcap hq0ne]
      exact jsSet_eq_append_of_not_mem p33.2 hp33qs
    rw [hsplit, hfin]
    constructor
    · simp [List.length_append, hlen', MAX_CACHE_SIZE]
    · apply jsGet_eq_none_of_not_mem
      simp only [List.map_append, List.map_cons, List.map_nil, List.mem_append,
        List.mem_singleton, List.mem_cons]
      push_neg
      exact ⟨hq0qs, by simpa using hq0p33⟩

/-- Witness for C4: a run of operations on a full 32-entry cache stays
within the bound, and 33 concrete distinct keys into the empty cache leave
32 entries with `b0` evicted. -/
theorem conversionCache_bounded_size_witness :
    (applyOps cexCache32 [CacheOp.get "k3", CacheOp.put "z" "zz"]).length ≤ MAX_CACHE_SIZE
    ∧ (insertAll cexKeys33 []).length = MAX_CACHE_SIZE
    ∧ jsGet "b0" (insertAll cexKeys33 []) = none := by
  refine ⟨conversionCache_bounded_size.1 [CacheOp.get "k3", CacheOp.put "z" "zz"] cexCache32
      (by decide) (by decide : ∀ k ∈ cexCache32.map Prod.fst, k ≠ "") (by decide), ?_, ?_⟩
  · exact (conversionCache_bounded_size.2 cexKeys33 ("b0", "x") (cexKeys33.tail)
      (by decide) (by decide) (by decide) (by decide)).1
  · exact (conversionCache_bounded_size.2 cexKeys33 ("b0", "x") (cexKeys33.tail)
      (by decide) (by decide) (by decide) (by decide)).2

/-- C3 (amended): a `get` hit moves the entry to the freshest position, and
the refreshed key then survives the insertion of up to 31 (= capacity - 1)
further keys distinct from it.  The claim as stated (32 fresh inserts) is
false: with 32 inserts the refreshed entry is exactly the one evicted by the
last insert, see the counterexample. -/
theorem getCached_refresh_protects :
    ∀ (c : Cache) (K vK : String) (ps : List (String × String)),
      (c.map Prod.fst).Nodup →
      jsGet K c = some vK → vK ≠ "" →
      ps.length + 1 ≤ MAX_CACHE_SIZE → (∀ p ∈ ps, p.1 ≠ K) →
      (getCached K c).1 = some vK
      ∧ jsGet K (insertAll ps (getCached K c).2) = some vK := by
  intro c K vK ps hnd hget hvK hlen hne
  obtain ⟨a, b, hab, ha, hb⟩ := cache_split_of_jsGet hnd hget
  have hgc : getCached K c = (some vK, jsSet K vK (jsDelete K c)) := by
    simp [getCached, hget, hvK]
  have hdel : jsDelete K c = a ++ b := by
    rw [hab, jsDelete_append_of_not_mem _ ha]
    simp [jsDelete]
  have hKab : K ∉ (a ++ b).map Prod.fst := by
    simp only [List.map_append, List.mem_append]
    push_neg
    exact ⟨ha, hb⟩
  have hset : jsSet K vK (jsDelete K c) = (a ++ b) ++ [(K, vK)] := by
    rw [hdel, jsSet_eq_append_of_not_mem vK hKab]
  obtain ⟨d1, d2, hd, hd1, _⟩ :=
    insertAll_preserves_entry ps (a ++ b) [] K vK hKab (by simp) (by simpa using hlen) hne
  constructor
  · rw [hgc]
  · rw [hgc]
    simp only
    have : (a ++ b) ++ [(K, vK)] = (a ++ b) ++ (K, vK) :: [] := by simp
    rw [hset, this, hd, jsGet_append_of_not_mem _ hd1]
    simp [jsGet]

set_option maxRecDepth 10000 in
/-- Witness for C3 (amended): a cache holding `K`, a hit on `K`, then 31
fresh inserts; `K` is still present. -/
theorem getCached_refresh_protects_witness :
    (getCached "K" [("K", "v")]).1 = some "v"
    ∧ jsGet "K" (insertAll (cexFresh32.take 31) (getCached "K" [("K", "v")]).2) = some "v" :=
  getCached_refresh_protects [("K", "v")] "K" "v" (cexFresh32.take 31)
    (by decide) (by decide) (by decide) (by decide) (by decide)

set_option maxRecDepth 10000 in
/-- C3 counterexample: the claim as stated.  The cache `[("K","v")]` holds
`K`; `get` hits and refreshes `K`; inserting the 32 pairwise-distinct fresh
keys `a0 .. a31` then evicts `K` (the last insert happens when `K` is the
oldest of 32 entries), so `K` is no longer present. -/
theorem getCached_refresh_32_inserts_cex :
    (getCached "K" [("K", "v")]).1 = some "v"
    ∧ jsGet "K" (insertAll cexFresh32 (getCached "K" [("K", "v")]).2) = none := by decide

/-- C6: on every failing invocation (non-zero exit, timeout kill, failure to
start are all surfaced through the caught error), `runAdbCommand` throws a
single error whose message is the program name `adb` with the full argument
list verbatim, the text ` failed`, then `: ` and the underlying failure
description when that is non-empty, then ` | stderr: ` and the trimmed
captured error stream exactly when that trimmed text is non-empty. -/
theorem runAdbCommand_failure_message :
    ∀ (exec : Exec) (args : List String) (timeoutMs : Nat) (e : String) (st : Option String),
      exec args timeoutMs = ExecOutcome.failure e st →
      runAdbCommand exec args timeoutMs =
        Except.error ("adb " ++ String.intercalate " " args ++ " failed"
          ++ (if e = "" then "" else ": " ++ e)
          ++ (if jsTrim ((st.getD "")) = "" then ""
              else " | stderr: " ++ jsTrim (st.getD ""))) := by
  intro exec args timeoutMs e st hexec
  cases st with
  | none =>
      simp only [runAdbCommand, hexec, adbFailureMessage, Option.getD]
      have htriv : jsTrim "" = "" := rfl
      rw [htriv]
      by_cases he : e = "" <;>
        simp [he, String.append_assoc] <;> congr 2
  | some s =>
      simp only [runAdbCommand, hexec, adbFailureMessage, Option.getD]
      by_cases he : e = "" <;> by_cases hs : jsTrim s = "" <;>
        simp [he, hs, String.append_assoc] <;> congr 2

/-- Witness for C6: a concrete failing invocation, message computed. -/
theorem runAdbCommand_failure_message_witness :
    runAdbCommand cexBadExec ["logcat", "-c"] 5000
      = Except.error "adb logcat -c failed: boom" := by
  have h := runAdbCommand_failure_message cexBadExec ["logcat", "-c"] 5000 "boom" none rfl
  simpa using h

/-- C8: `buildLogcatArgs` is a pure function producing the fixed argument
order `logcat -d -t <count> [--pid=<pid>] [-s <tag>:<priority>]`.  The two
example filter requests of the spec produce exactly the expected vectors,
pid scoping and tag scoping are independent (both present means both
appended, in this order), and the schema default for an unspecified priority
is V, the most verbose level. -/
theorem buildLogcatArgs_shape :
    buildLogcatArgs ⟨none, none, some "MyTag", Priority.D, 50, 5000⟩ none
        = ["logcat", "-d", "-t", "50", "-s", "MyTag:D"]
    ∧ buildLogcatArgs ⟨none, some "123", none, Priority.V, 10, 5000⟩ (some "123")
        = ["logcat", "-d", "-t", "10", "--pid=123"]
    ∧ (∀ (params : LogcatParams) (pid : Option String) (p t : String),
        optTruthy pid = some p → optTruthy params.tag = some t →
        buildLogcatArgs params pid
          = ["logcat", "-d", "-t", toString params.maxLines,
             "--pid=" ++ p, "-s", t ++ ":" ++ params.priority.toStr])
    ∧ resolvePriority none = Priority.V := by
  refine ⟨by decide, by decide, ?_, rfl⟩
  intro params pid p t hp ht
  simp [buildLogcatArgs, hp, ht]

/-- Witness for C8: both scoping flags present simultaneously. -/
theorem buildLogcatArgs_shape_witness :
    buildLogcatArgs ⟨some "com.app", some "77", some "T", Priority.E, 200, 5000⟩ (some "77")
      = ["logcat", "-d", "-t", "200", "--pid=77", "-s", "T:E"] :=
  buildLogcatArgs_shape.2.2.1 ⟨some "com.app", some "77", some "T", Priority.E, 200, 5000⟩
    (some "77") "77" "T" rfl rfl

theorem mk_cons_ne_empty (c : Char) (l : List Char) : String.mk (c :: l) ≠ "" := by
  intro h
  have := congrArg String.data h
  simp at this

theorem splitWsGo_skip :
    ∀ cs : List Char, splitWsGo cs [] true = splitWsGo (cs.dropWhile Char.isWhitespace) [] false := by
  intro cs
  induction cs with
  | nil => rfl
  | cons c rest ih =>
      by_cases hws : c.isWhitespace
      · simp [splitWsGo, hws, List.dropWhile_cons, ih]
      · simp [splitWsGo, hws, List.dropWhile_cons]

theorem splitWsGo_head :
    ∀ (cs : List Char) (cur : List Char),
      (splitWsGo cs cur false).head?
        = some (String.mk (cur.reverse ++ cs.takeWhile (fun c => !c.isWhitespace))) := by
  intro cs
  induction cs with
  | nil => intro cur; simp [splitWsGo]
  | cons c rest ih =>
      intro cur
      by_cases hws : c.isWhitespace
      · simp [splitWsGo, hws, List.takeWhile_cons]
      · have hstep : splitWsGo (c :: rest) cur false = splitWsGo rest (c :: cur) false := by
          simp [splitWsGo, hws]
        rw [hstep, ih (c :: cur)]
        simp [List.takeWhile_cons, hws]

theorem splitWs_find_first_token :
    ∀ (n : Nat) (cs : List Char), cs.length ≤ n →
      (splitWsGo cs [] false).find? (fun t => t != "") =
        (match cs.dropWhile Char.isWhitespace with
         | [] => none
         | c :: rest => some (String.mk ((c :: rest).takeWhile (fun ch => !ch.isWhitespace)))) := by
  intro n
  induction n with
  | zero =>
      intro cs hlen
      have : cs = [] := List.length_eq_zero.1 (Nat.le_zero.1 hlen)
      subst this
      simp [splitWsGo, List.find?]
  | succ n ih =>
      intro cs hlen
      cases cs with
      | nil => simp [splitWsGo, List.find?]
      | cons c rest =>
          by_cases hws : c.isWhitespace
          · have hdw : (rest.dropWhile Char.isWhitespace).length ≤ n := by
              have h1 : (rest.dropWhile Char.isWhitespace).length ≤ rest.length :=
                (List.dropWhile_sublist Char.isWhitespace).length_le
              simp at hlen
              omega
            have hih := ih (rest.dropWhile Char.isWhitespace) hdw
            rw [List.dropWhile_idempotent] at hih
            have hstep : splitWsGo (c :: rest) [] false = "" :: splitWsGo rest [] true := by
              simp [splitWsGo, hws]
            rw [hstep, List.find?_cons_of_neg _ (by simp), splitWsGo_skip, hih]
            simp [List.dropWhile_cons, hws]
          · have hstep : splitWsGo (c :: rest) [] false = splitWsGo rest [c] false := by
              simp [splitWsGo, hws]
            rw [hstep]
            have hhead := splitWsGo_head rest [c]
            obtain ⟨h, tl, hcase⟩ : ∃ h tl, splitWsGo rest [c] false = h :: tl := by
              cases hc : splitWsGo rest [c] false with
              | nil => rw [hc] at hhead; simp at hhead
              | cons h tl => exact ⟨h, tl, rfl⟩
            rw [hcase] at hhead ⊢
            simp only [List.head?_cons, Option.some.injEq] at hhead
            subst hhead
            rw [List.find?_cons_of_pos _ (by simp [mk_cons_ne_empty])]
            simp [List.dropWhile_cons, hws, List.takeWhile_cons]

/-- C7: `resolvePid` parses the first non-whitespace token of the
trailing-trimmed invocation output (the `find(Boolean)` over the
whitespace split); when the trimmed output has no such token it fails with
the distinct not-found message naming the queried package, not with an
invocation failure. -/
theorem resolvePid_first_token :
    ∀ (exec : Exec) (name raw : String) (timeoutMs : Nat),
      exec ["shell", "pidof", "-s", name] timeoutMs = ExecOutcome.success raw →
      ((∀ c ∈ (jsTrimEnd raw).data, c.isWhitespace) →
        resolvePid exec name timeoutMs
          = Except.error ("Could not resolve pid for package " ++ name))
      ∧ (∀ c0 crest, (jsTrimEnd raw).data.dropWhile Char.isWhitespace = c0 :: crest →
        resolvePid exec name timeoutMs
          = Except.ok (String.mk ((c0 :: crest).takeWhile (fun ch => !ch.isWhitespace)))) := by
  intro exec name raw timeoutMs hexec
  have hrun : runAdbCommand exec ["shell", "pidof", "-s", name] timeoutMs
      = Except.ok (jsTrimEnd raw) := by
    simp [runAdbCommand, hexec]
  have hfind := splitWs_find_first_token (jsTrimEnd raw).data.length (jsTrimEnd raw).data le_rfl
  constructor
  · intro hws
    have hnil : (jsTrimEnd raw).data.dropWhile Char.isWhitespace = [] :=
      List.dropWhile_eq_nil_iff.mpr hws
    rw [hnil] at hfind
    simp [resolvePid, hrun, splitWs, hfind]
  · intro c0 crest hcons
    rw [hcons] at hfind
    simp [resolvePid, hrun, splitWs, hfind]

/-- Witness for C7: output text `"  4821 \n"` resolves to `"4821"`; empty
output yields the not-found failure naming the package. -/
theorem resolvePid_first_token_witness :
    resolvePid cexPidExec "com.example.app" 5000 = Except.ok "4821"
    ∧ resolvePid cexEmptyExec "com.example.app" 5000
      = Except.error "Could not resolve pid for package com.example.app" := by
  constructor
  · exact (resolvePid_first_token cexPidExec "com.example.app" "  4821 \n" 5000 rfl).2
      '4' ['8', '2', '1'] (by decide)
  · exact (resolvePid_first_token cexEmptyExec "com.example.app" "" 5000 rfl).1 (by decide)

/-- C9 (amended): invocation failures, resolution-empty failures and
conversion failures propagate unchanged to the tool boundary and become the
tool's error outcome for `read-adb-logcat`, `get-pid-by-package` and the
conversion tool, with no retry; the exception is `check-anr-state`, which
wraps each of its three invocations in its own catch and embeds the failure
message into a text payload, so that tool always succeeds (a deliberate
partial-success mode the claim rules out, see the counterexample). -/
theorem failure_propagation_amended :
    (∀ (exec : Exec) (params : LogcatParams) (name : String) (m : String),
        optTruthy params.pid = none → optTruthy params.packageName = some name →
        resolvePid exec name params.timeoutMs = Except.error m →
        readLogcatHandler exec params = Except.error m)
    ∧ (∀ (exec : Exec) (params : LogcatParams) (p : String) (m : String),
        optTruthy params.pid = some p →
        runAdbCommand exec (buildLogcatArgs params (some p)) params.timeoutMs
          = Except.error m →
        readLogcatHandler exec params = Except.error m)
    ∧ (∀ (exec : Exec) (name : String) (tmo : Nat) (m : String),
        resolvePid exec name tmo = Except.error m →
        getPidByPackageHandler exec name tmo = Except.error m)
    ∧ (∀ (digest : String → String) (convert : String → ConvOptions → String)
        (s : String) (o : ConvOptions) (c : Cache),
        convert s o = "" →
        (handleConvert digest convert ⟨s, o, false⟩ c).1.result
          = Except.error "Conversion did not produce XML")
    ∧ (∀ (exec : Exec) (params : AnrParams),
        ∃ t, checkAnrStateHandler exec params = Except.ok t) := by
  refine ⟨?_, ?_, ?_, ?_, ?_⟩
  · intro exec params name m hpid hpkg hres
    simp only [readLogcatHandler, hpid, hpkg, hres]
    rfl
  · intro exec params p m hpid hrun
    simp only [readLogcatHandler, hpid]
    show Except.bind (Except.ok (some p)) _ = _
    simp only [Except.bind]
    rw [hrun]
    rfl
  · intro exec name tmo m hres
    simpa [getPidByPackageHandler] using hres
  · intro digest convert s o c hconv
    simp [handleConvert, hconv]
  · intro exec params
    exact ⟨_, rfl⟩

/-- Witness for C9 (amended): a failing oracle makes `read-adb-logcat` (with
explicit pid) and `get-pid-by-package` fail with the underlying invocation
message, a converter returning no XML makes the conversion tool fail, and
`check-anr-state` still succeeds on the same failing oracle. -/
theorem failure_propagation_amended_witness :
    readLogcatHandler cexBadExec ⟨none, some "77", none, Priority.V, 200, 5000⟩
      = Except.error "adb logcat -d -t 200 --pid=77 failed: boom"
    ∧ getPidByPackageHandler cexBadExec "com.app" 5000
      = Except.error "adb shell pidof -s com.app failed: boom"
    ∧ (handleConvert (fun x => x) (fun _ _ => "") ⟨"svg", ⟨2, false, false, none⟩, false⟩ []).1.result
      = Except.error "Conversion did not produce XML"
    ∧ (∃ t, checkAnrStateHandler cexBadExec ⟨400, 5000⟩ = Except.ok t) := by
  refine ⟨?_, ?_, ?_, ?_⟩
  · exact failure_propagation_amended.2.1 cexBadExec
      ⟨none, some "77", none, Priority.V, 200, 5000⟩ "77"
      "adb logcat -d -t 200 --pid=77 failed: boom" (by decide) rfl
  · exact failure_propagation_amended.2.2.1 cexBadExec "com.app" 5000
      "adb shell pidof -s com.app failed: boom" rfl
  · exact failure_propagation_amended.2.2.2.1 (fun x => x) (fun _ _ => "") "svg"
      ⟨2, false, false, none⟩ [] rfl
  · exact failure_propagation_amended.2.2.2.2 cexBadExec ⟨400, 5000⟩

/-- C9 counterexample: the claim says every invocation failure becomes the
tool's error outcome.  With an oracle on which every adb invocation fails,
`check-anr-state` nevertheless returns a successful text payload that embeds
the three failure messages: the failures are caught per section, not
surfaced as the tool's error outcome. -/
theorem checkAnrState_swallows_invocation_failure_cex :
    checkAnrStateHandler cexBadExec ⟨400, 5000⟩
      = Except.ok ("ActivityManager: adb logcat -d -t 400 ActivityManager:E *:S failed: boom"
          ++ "\n\n" ++ "traces.txt stat: adb shell ls -l /data/anr/traces.txt failed: boom"
          ++ "\n\n" ++ "traces.txt tail: adb shell tail -n 200 /data/anr/traces.txt failed: boom") := by
  rfl

/-- C10: with the per-call cache opt-out (`cache: false`) the handler skips
the lookup but still runs the converter (`converted = true` even if the key
is already cached) and stores the fresh XML under its key; an immediately
following call with `cache: true` and the same request hits that entry
(`converted = false`) and returns the same XML. -/
theorem cache_optout_still_stores :
    ∀ (digest : String → String) (convert : String → ConvOptions → String)
      (s : String) (o : ConvOptions) (c : Cache),
      convert s o ≠ "" →
      (handleConvert digest convert ⟨s, o, false⟩ c).1.result = Except.ok (convert s o)
      ∧ (handleConvert digest convert ⟨s, o, false⟩ c).1.converted = true
      ∧ jsGet (makeCacheKey digest s o) (handleConvert digest convert ⟨s, o, false⟩ c).2
          = some (convert s o)
      ∧ (handleConvert digest convert ⟨s, o, true⟩
            (handleConvert digest convert ⟨s, o, false⟩ c).2).1.result
          = Except.ok (convert s o)
      ∧ (handleConvert digest convert ⟨s, o, true⟩
            (handleConvert digest convert ⟨s, o, false⟩ c).2).1.converted = false := by
  intro digest convert s o c hconv
  have h1 : handleConvert digest convert ⟨s, o, false⟩ c
      = (⟨Except.ok (convert s o), true⟩, setCache (makeCacheKey digest s o) (convert s o) c) := by
    simp [handleConvert, hconv]
  have hget : jsGet (makeCacheKey digest s o)
      (setCache (makeCacheKey digest s o) (convert s o) c) = some (convert s o) := by
    simp only [setCache]
    exact jsGet_jsSet_self _ _ _
  refine ⟨by rw [h1], by rw [h1], by rw [h1]; exact hget, ?_, ?_⟩ <;>
    rw [h1] <;>
    simp [handleConvert, getCached, hget, hconv]

/-- Witness for C10: concrete request, empty initial cache. -/
theorem cache_optout_still_stores_witness :
    (handleConvert (fun x => x) (fun _ _ => "<vector/>")
        ⟨"svg", ⟨2, false, false, none⟩, false⟩ []).1.result = Except.ok "<vector/>"
    ∧ jsGet (makeCacheKey (fun x => x) "svg" ⟨2, false, false, none⟩)
        (handleConvert (fun x => x) (fun _ _ => "<vector/>")
          ⟨"svg", ⟨2, false, false, none⟩, false⟩ []).2 = some "<vector/>" := by
  have h := cache_optout_still_stores (fun x => x) (fun _ _ => "<vector/>") "svg"
    ⟨2, false, false, none⟩ [] (by decide)
  exact ⟨h.1, h.2.2.1⟩

/-! ### Analysis of the JSON escape and of `stringifyOptions`

These lemmas establish that `svg ++ JSON.stringify(options)`, the byte
string digested by `makeCacheKey`, determines both the SVG text and the
option set: the serialized object starts with the only unescaped brace
outside the tint literal, and the escaped tint body never contains the
two-character sequence brace-then-quote. -/

theorem string_ext_data {a b : String} (h : a.data = b.data) : a = b := by
  cases a
  cases b
  exact congrArg String.mk h

theorem hexDigit_inj : ∀ n < 16, ∀ m < 16, hexDigit n = hexDigit m → n = m := by decide

theorem hexDigit_ne_brace : ∀ n < 16, hexDigit n ≠ '\x7b' := by decide

theorem jsonEscapeChar_ne_nil (c : Char) : jsonEscapeChar c ≠ [] := by
  unfold jsonEscapeChar
  split_ifs <;> simp

theorem jsonEscapeChar_head_ne_quote (c : Char) :
    ∀ h t, jsonEscapeChar c = h :: t → h ≠ '"' := by
  intro h t heq hq
  subst hq
  unfold jsonEscapeChar at heq
  split_ifs at heq with h1 h2 h3 h4 h5 h6 h7 h8 <;>
    simp only [List.cons.injEq] at heq
  · exact absurd heq.1 (by decide)
  · exact absurd heq.1 (by decide)
  · exact absurd heq.1 (by decide)
  · exact absurd heq.1 (by decide)
  · exact absurd heq.1 (by decide)
  · exact absurd heq.1 (by decide)
  · exact absurd heq.1 (by decide)
  · exact absurd heq.1 (by decide)
  · exact h1 heq.1

theorem jsonEscape_ne_quote_cons (cs : List Char) : ∀ b, jsonEscape cs ≠ '"' :: b := by
  intro b heq
  cases cs with
  | nil => simp [jsonEscape] at heq
  | cons c cs' =>
      rw [jsonEscape, List.flatMap_cons] at heq
      obtain ⟨h, t, hc⟩ : ∃ h t, jsonEscapeChar c = h :: t := by
        cases hcc : jsonEscapeChar c with
        | nil => exact absurd hcc (jsonEscapeChar_ne_nil c)
        | cons h t => exact ⟨h, t, rfl⟩
      rw [hc] at heq
      simp only [List.cons_append, List.cons.injEq] at heq
      exact jsonEscapeChar_head_ne_quote c h t hc heq.1

theorem append_pair_split {α : Type} {l1 l2 a b : List α} {x y : α}
    (h : l1 ++ l2 = a ++ x :: y :: b) :
    (∃ a' b', l1 = a' ++ x :: y :: b') ∨ (∃ a', l2 = a' ++ x :: y :: b)
    ∨ (∃ a', l1 = a' ++ [x] ∧ l2 = y :: b) := by
  rw [List.append_eq_append_iff] at h
  rcases h with ⟨w, _, hl2⟩ | ⟨w, hl1, hw⟩
  · exact Or.inr (Or.inl ⟨w, hl2⟩)
  · cases w with
    | nil =>
        simp only [List.nil_append] at hw
        exact Or.inr (Or.inl ⟨[], by simp [hw.symm]⟩)
    | cons w0 w' =>
        simp only [List.cons_append, List.cons.injEq] at hw
        obtain ⟨hx, hw⟩ := hw
        cases w' with
        | nil =>
            simp only [List.nil_append] at hw
            exact Or.inr (Or.inr ⟨a, by rw [hl1, hx], hw.symm⟩)
        | cons w1 w'' =>
            simp only [List.cons_append, List.cons.injEq] at hw
            obtain ⟨hy, _⟩ := hw
            exact Or.inl ⟨a, w'', by rw [hl1, hx, hy]⟩

theorem pair_mem {α : Type} {l a b : List α} {x y : α} (h : l = a ++ x :: y :: b) :
    x ∈ l ∧ y ∈ l := by
  subst h
  constructor <;> simp

theorem jsonEscapeChar_no_pair (c : Char) :
    ∀ a b, jsonEscapeChar c ≠ a ++ '\x7b' :: '"' :: b := by
  intro a b heq
  have hmem := pair_mem heq
  unfold jsonEscapeChar at hmem
  split_ifs at hmem with h1 h2 h3 h4 h5 h6 h7 h8
  · simp at hmem
  · simp at hmem
  · simp at hmem
  · simp at hmem
  · simp at hmem
  · simp at hmem
  · simp at hmem
  · obtain ⟨hb, _⟩ := hmem
    simp only [List.mem_cons, List.not_mem_nil, or_false] at hb
    rcases hb with h | h | h | h | h | h
    · exact absurd h (by decide)
    · exact absurd h (by decide)
    · exact absurd h (by decide)
    · exact absurd h (by decide)
    · exact hexDigit_ne_brace (c.toNat / 16) (by omega) h.symm
    · exact hexDigit_ne_brace (c.toNat % 16) (Nat.mod_lt _ (by omega)) h.symm
  · obtain ⟨hb, hq⟩ := hmem
    simp only [List.mem_singleton] at hb hq
    rw [← hb] at hq
    exact absurd hq (by decide)

theorem jsonEscape_no_pair :
    ∀ (cs : List Char) (a b : List Char), jsonEscape cs ≠ a ++ '\x7b' :: '"' :: b := by
  intro cs
  induction cs with
  | nil =>
      intro a b h
      rw [jsonEscape, List.flatMap_nil] at h
      cases a <;> simp at h
  | cons c cs' ih =>
      intro a b h
      rw [jsonEscape, List.flatMap_cons] at h
      rcases append_pair_split h with ⟨a', b', hc⟩ | ⟨a', hc⟩ | ⟨a', _, hc2⟩
      · exact jsonEscapeChar_no_pair c a' b' hc
      · exact ih a' b hc
      · exact jsonEscape_ne_quote_cons cs' b hc2

set_option maxHeartbeats 2000000 in
theorem jsonEscapeChar_prefix_inj :
    ∀ (c1 c2 : Char) (r1 r2 : List Char),
      jsonEscapeChar c1 ++ r1 = jsonEscapeChar c2 ++ r2 → c1 = c2 ∧ r1 = r2 := by
  intro c1 c2 r1 r2 h
  unfold jsonEscapeChar at h
  split_ifs at h <;>
    first
      | (simp_all
         done)
      | (simp only [List.cons_append, List.cons.injEq, List.nil_append] at h
         first
           | exact absurd h.1.symm (by assumption)
           | exact absurd h.1 (by assumption))
      | (simp only [List.cons_append, List.cons.injEq, eq_self_iff_true, true_and] at h
         obtain ⟨hh1, hh2, hr⟩ := h
         refine ⟨?_, hr⟩
         have e1 := hexDigit_inj _ (by omega) _ (by omega) hh1
         have e2 := hexDigit_inj _ (Nat.mod_lt _ (by omega)) _ (Nat.mod_lt _ (by omega)) hh2
         have heq : c1.toNat = c2.toNat := by omega
         calc c1 = Char.ofNat c1.toNat := (Char.ofNat_toNat c1).symm
           _ = Char.ofNat c2.toNat := by rw [heq]
           _ = c2 := Char.ofNat_toNat c2)

theorem jsonEscape_inj : ∀ (t1 t2 : List Char), jsonEscape t1 = jsonEscape t2 → t1 = t2 := by
  intro t1
  induction t1 with
  | nil =>
      intro t2 h
      cases t2 with
      | nil => rfl
      | cons c cs =>
          rw [jsonEscape, List.flatMap_nil, jsonEscape, List.flatMap_cons] at h
          cases hcc : jsonEscapeChar c with
          | nil => exact absurd hcc (jsonEscapeChar_ne_nil c)
          | cons x xs => rw [hcc] at h; simp at h
  | cons c1 cs1 ih =>
      intro t2 h
      cases t2 with
      | nil =>
          rw [jsonEscape, List.flatMap_cons, jsonEscape, List.flatMap_nil] at h
          cases hcc : jsonEscapeChar c1 with
          | nil => exact absurd hcc (jsonEscapeChar_ne_nil c1)
          | cons x xs => rw [hcc] at h; simp at h
      | cons c2 cs2 =>
          rw [jsonEscape, List.flatMap_cons, jsonEscape, List.flatMap_cons] at h
          obtain ⟨hc, hrest⟩ := jsonEscapeChar_prefix_inj c1 c2 _ _ h
          rw [hc, ih cs2 hrest]

theorem natChars_fin7 : ∀ p : Fin 7, natChars p.val = [Char.ofNat (48 + p.val)] := by decide

theorem natChars_fin7_braceFree : ∀ p : Fin 7, '\x7b' ∉ natChars p.val := by decide

theorem fin7_digit_inj :
    ∀ p q : Fin 7, Char.ofNat (48 + p.val) = Char.ofNat (48 + q.val) → p = q := by decide

theorem boolChars_braceFree : ∀ b : Bool, '\x7b' ∉ boolChars b := by decide

theorem boolChars_last : ∀ b : Bool, ∃ pre, boolChars b = pre ++ ['e'] := by
  intro b
  cases b
  · exact ⟨['f', 'a', 'l', 's'], rfl⟩
  · exact ⟨['t', 'r', 'u'], rfl⟩

theorem stringify_brace_cons (o : ConvOptions) :
    stringifyOptionsChars o = '\x7b' :: optionsAfterBrace o := by
  rw [stringifyOptionsChars, optionsAfterBrace,
    show ("\x7b\"floatPrecision\":".data) = '\x7b' :: "\"floatPrecision\":".data from rfl]
  simp [List.cons_append, List.append_assoc]

theorem optionsAfterBrace_tint (o : ConvOptions) (t : String) (ht : o.tint = some t) :
    optionsAfterBrace o = tintPrefix o ++ jsonEscape t.data ++ ['"', '\x7d'] := by
  rw [optionsAfterBrace, tintPrefix, ht]
  simp only [jsonQuote]
  simp [List.append_assoc, List.cons_append]

theorem optionsAfterBrace_braceFree_noTint (o : ConvOptions) (ht : o.tint = none) :
    '\x7b' ∉ optionsAfterBrace o := by
  rw [optionsAfterBrace, ht]
  generalize o.floatPrecision = p
  generalize o.fillBlack = f
  generalize o.xmlTag = x
  revert p f x
  decide

theorem tintPrefix_braceFree (o : ConvOptions) : '\x7b' ∉ tintPrefix o := by
  rw [tintPrefix]
  generalize o.floatPrecision = p
  generalize o.fillBlack = f
  generalize o.xmlTag = x
  revert p f x
  decide

theorem optionsAfterBrace_quote_cons (o : ConvOptions) :
    ∃ w, optionsAfterBrace o = '"' :: w := by
  refine ⟨"floatPrecision\":".data ++ natChars o.floatPrecision.val
    ++ ",\"fillBlack\":".data ++ boolChars o.fillBlack
    ++ ",\"xmlTag\":".data ++ boolChars o.xmlTag
    ++ (match o.tint with
        | none => []
        | some t => ",\"tint\":".data ++ jsonQuote t)
    ++ ['\x7d'], ?_⟩
  rw [optionsAfterBrace,
    show ("\"floatPrecision\":".data) = '"' :: "floatPrecision\":".data from rfl]
  simp [List.cons_append, List.append_assoc]

theorem stringify_last_noTint (o : ConvOptions) (ht : o.tint = none) :
    ∃ C, stringifyOptionsChars o = C ++ ['e', '\x7d'] := by
  obtain ⟨pre, hpre⟩ := boolChars_last o.xmlTag
  rw [stringify_brace_cons, optionsAfterBrace, ht, hpre]
  refine ⟨'\x7b' :: ("\"floatPrecision\":".data ++ natChars o.floatPrecision.val
    ++ ",\"fillBlack\":".data ++ boolChars o.fillBlack ++ ",\"xmlTag\":".data ++ pre), ?_⟩
  simp [List.cons_append, List.append_assoc]

theorem stringify_last_tint (o : ConvOptions) (t : String) (ht : o.tint = some t) :
    ∃ D, stringifyOptionsChars o = D ++ ['"', '\x7d'] := by
  rw [stringify_brace_cons, optionsAfterBrace_tint o t ht]
  exact ⟨'\x7b' :: (tintPrefix o ++ jsonEscape t.data), by simp [List.append_assoc]⟩

theorem tintPrefix_quote_cons (o : ConvOptions) : ∃ w, tintPrefix o = '"' :: w := by
  refine ⟨"floatPrecision\":".data ++ natChars o.floatPrecision.val
    ++ ",\"fillBlack\":".data ++ boolChars o.fillBlack
    ++ ",\"xmlTag\":".data ++ boolChars o.xmlTag
    ++ ",\"tint\":".data ++ ['"'], ?_⟩
  rw [tintPrefix,
    show ("\"floatPrecision\":".data) = '"' :: "floatPrecision\":".data from rfl]
  simp [List.cons_append, List.append_assoc]

theorem braceFree_append_split {X Y u R : List Char}
    (hX : '\x7b' ∉ X) (h : X ++ Y = u ++ '\x7b' :: R) :
    ∃ w, u = X ++ w ∧ Y = w ++ '\x7b' :: R := by
  rw [List.append_eq_append_iff] at h
  rcases h with ⟨w, hu, hY⟩ | ⟨w, hX', hR⟩
  · exact ⟨w, hu, hY⟩
  · cases w with
    | nil =>
        simp only [List.append_nil] at hX'
        simp only [List.nil_append] at hR
        exact ⟨[], by simp [hX'], by simp [hR.symm]⟩
    | cons w0 w' =>
        simp only [List.cons_append, List.cons.injEq] at hR
        obtain ⟨hw0, _⟩ := hR
        refine absurd ?_ hX
        rw [hX']
        exact List.mem_append_right u (by simp [← hw0])

theorem stringify_no_proper_suffix :
    ∀ (o1 o2 : ConvOptions) (u : List Char),
      stringifyOptionsChars o1 = u ++ stringifyOptionsChars o2 → u = [] := by
  intro o1 o2 u h
  by_contra hu
  obtain ⟨u0, u', rfl⟩ : ∃ u0 u', u = u0 :: u' := by
    cases u with
    | nil => exact absurd rfl hu
    | cons a b => exact ⟨a, b, rfl⟩
  cases ht1 : o1.tint with
  | none =>
      rw [stringify_brace_cons, stringify_brace_cons] at h
      simp only [List.cons_append, List.cons.injEq] at h
      obtain ⟨_, h⟩ := h
      refine optionsAfterBrace_braceFree_noTint o1 ht1 ?_
      rw [h]
      simp
  | some t1 =>
      cases ht2 : o2.tint with
      | none =>
          obtain ⟨D, hD⟩ := stringify_last_tint o1 t1 ht1
          obtain ⟨C, hC⟩ := stringify_last_noTint o2 ht2
          rw [hD, hC] at h
          have hrev := congrArg List.reverse h
          simp only [List.reverse_append, List.reverse_cons, List.reverse_nil,
            List.nil_append, List.cons_append, List.append_assoc, List.cons.injEq] at hrev
          exact absurd hrev.2.1 (by decide)
      | some t2 =>
          obtain ⟨tp2, htp2⟩ := tintPrefix_quote_cons o2
          rw [stringify_brace_cons, stringify_brace_cons, optionsAfterBrace_tint o1 t1 ht1,
            optionsAfterBrace_tint o2 t2 ht2, htp2] at h
          simp only [List.cons_append, List.cons.injEq] at h
          obtain ⟨_, h⟩ := h
          simp only [List.append_assoc] at h
          obtain ⟨w, _, hw⟩ := braceFree_append_split (tintPrefix_braceFree o1) h
          -- hw : jsonEscape t1.data ++ ['"','}'] = w ++ '{' :: '"' :: (...)
          have hw2 : jsonEscape t1.data ++ ['"', '\x7d']
              = (w ++ '\x7b' :: '"' :: (tp2 ++ jsonEscape t2.data)) ++ ['"', '\x7d'] := by
            rw [hw]
            simp [List.append_assoc]
          have hfin := List.append_cancel_right hw2
          exact jsonEscape_no_pair t1.data w (tp2 ++ jsonEscape t2.data) hfin

theorem stringifyOptionsChars_inj :
    ∀ o1 o2 : ConvOptions, stringifyOptionsChars o1 = stringifyOptionsChars o2 → o1 = o2 := by
  intro o1 o2 h
  obtain ⟨p1, f1, x1, t1⟩ := o1
  obtain ⟨p2, f2, x2, t2⟩ := o2
  rw [stringify_brace_cons, stringify_brace_cons] at h
  simp only [List.cons.injEq, true_and] at h
  rw [optionsAfterBrace, optionsAfterBrace] at h
  dsimp only at h
  rw [natChars_fin7 p1, natChars_fin7 p2] at h
  simp only [List.append_assoc, List.cons_append, List.singleton_append,
    List.nil_append, List.cons.injEq, true_and] at h
  obtain ⟨hd, h2⟩ := h
  have hp := fin7_digit_inj p1 p2 hd
  subst hp
  cases f1 <;> cases f2 <;>
    simp only [boolChars, if_true, if_false, Bool.false_eq_true, List.append_assoc,
      List.cons_append, List.singleton_append, List.nil_append, List.cons.injEq,
      eq_self_iff_true, true_and] at h2 <;>
    first
      | exact absurd h2.1 (by decide)
      | (cases x1 <;> cases x2 <;>
          simp only [if_true, if_false, Bool.false_eq_true, List.append_assoc,
            List.cons_append, List.singleton_append, List.nil_append, List.cons.injEq,
            eq_self_iff_true, true_and] at h2 <;>
          first
            | exact absurd h2.1 (by decide)
            | (cases t1 <;> cases t2 <;>
                simp only [jsonQuote, List.append_assoc, List.cons_append,
                  List.singleton_append, List.nil_append, List.cons.injEq,
                  eq_self_iff_true, true_and] at h2 <;>
                first
                  | rfl
                  | exact absurd h2.1 (by decide)
                  | (have hesc := List.append_cancel_right h2
                     have hts := string_ext_data (jsonEscape_inj _ _ hesc)
                     rw [hts])))

/-- The byte string digested by `makeCacheKey` determines the SVG text and
the resolved option set: `svg ++ JSON.stringify(options)` is injective. -/
theorem makeCacheKeyInput_inj :
    ∀ (s1 : String) (o1 : ConvOptions) (s2 : String) (o2 : ConvOptions),
      makeCacheKeyInput s1 o1 = makeCacheKeyInput s2 o2 → s1 = s2 ∧ o1 = o2 := by
  intro s1 o1 s2 o2 h
  have hd : s1.data ++ stringifyOptionsChars o1 = s2.data ++ stringifyOptionsChars o2 :=
    congrArg String.data h
  rcases Nat.lt_trichotomy s1.data.length s2.data.length with hlt | heq | hgt
  · exfalso
    have h1 : s1.data.length ≤ s2.data.length := le_of_lt hlt
    have htake : s2.data.take s1.data.length = s1.data := by
      have hh := congrArg (List.take s1.data.length) hd
      rw [List.take_left, List.take_append_of_le_length h1] at hh
      exact hh.symm
    have hdrop : stringifyOptionsChars o1
        = s2.data.drop s1.data.length ++ stringifyOptionsChars o2 := by
      have hh := congrArg (List.drop s1.data.length) hd
      rw [List.drop_left, List.drop_append_of_le_length h1] at hh
      exact hh
    have hnil := stringify_no_proper_suffix o1 o2 _ hdrop
    have : s2.data.length - s1.data.length = 0 := by
      have := congrArg List.length hnil
      simpa using this
    omega
  · obtain ⟨hs, hJ⟩ := List.append_inj hd heq
    exact ⟨string_ext_data hs, stringifyOptionsChars_inj o1 o2 hJ⟩
  · exfalso
    have h1 : s2.data.length ≤ s1.data.length := le_of_lt hgt
    have hdrop : stringifyOptionsChars o2
        = s1.data.drop s2.data.length ++ stringifyOptionsChars o1 := by
      have hh := congrArg (List.drop s2.data.length) hd.symm
      rw [List.drop_left, List.drop_append_of_le_length h1] at hh
      exact hh
    have hnil := stringify_no_proper_suffix o2 o1 _ hdrop
    have : s1.data.length - s2.data.length = 0 := by
      have := congrArg List.length hnil
      simpa using this
    omega

/-- C5: `makeCacheKey` is a pure function of the SVG text and the resolved
option set: equal inputs give equal keys, and with the 256-bit digest read
as injective on its input bytes, any difference in the text or in the option
values (in particular in any single option value) gives a different key,
because the digested byte string `svg ++ JSON.stringify(options)` is itself
injective in the pair. -/
theorem makeCacheKey_pure_and_separating :
    (∀ (digest : String → String) (s1 s2 : String) (o1 o2 : ConvOptions),
        s1 = s2 → o1 = o2 → makeCacheKey digest s1 o1 = makeCacheKey digest s2 o2)
    ∧ (∀ digest : String → String, Function.Injective digest →
        ∀ (s1 : String) (o1 : ConvOptions) (s2 : String) (o2 : ConvOptions),
          (s1 ≠ s2 ∨ o1 ≠ o2) →
          makeCacheKey digest s1 o1 ≠ makeCacheKey digest s2 o2) := by
  constructor
  · intro digest s1 s2 o1 o2 hs ho
    rw [hs, ho]
  · intro digest hdig s1 o1 s2 o2 hne heq
    have hio := makeCacheKeyInput_inj s1 o1 s2 o2 (hdig heq)
    rcases hne with hne | hne
    · exact hne hio.1
    · exact hne hio.2

/-- Witness for C5: equal inputs agree; changing only `floatPrecision`,
only `tint`, or only the SVG text changes the key (identity digest). -/
theorem makeCacheKey_pure_and_separating_witness :
    makeCacheKey id "a" ⟨2, false, false, none⟩ = makeCacheKey id "a" ⟨2, false, false, none⟩
    ∧ makeCacheKey id "a" ⟨2, false, false, none⟩ ≠ makeCacheKey id "a" ⟨3, false, false, none⟩
    ∧ makeCacheKey id "a" ⟨2, false, false, none⟩
        ≠ makeCacheKey id "a" ⟨2, false, false, some "#FF0000"⟩
    ∧ makeCacheKey id "a" ⟨2, false, false, none⟩ ≠ makeCacheKey id "b" ⟨2, false, false, none⟩ := by
  refine ⟨makeCacheKey_pure_and_separating.1 id "a" "a" _ _ rfl rfl, ?_, ?_, ?_⟩
  · exact makeCacheKey_pure_and_separating.2 id Function.injective_id "a" _ "a" _
      (Or.inr (by decide))
  · exact makeCacheKey_pure_and_separating.2 id Function.injective_id "a" _ "a" _
      (Or.inr (by decide))
  · exact makeCacheKey_pure_and_separating.2 id Function.injective_id "a" _ "b" _
      (Or.inl (by decide))

theorem mem_setCache {p : String × String} {k v : String} {c : Cache}
    (h : p ∈ setCache k v c) : p = (k, v) ∨ p ∈ c := by
  simp only [setCache] at h
  rcases mem_jsSet h with h' | h'
  · exact Or.inl h'
  · right
    by_cases hcap : MAX_CACHE_SIZE ≤ c.length
    · rw [if_pos hcap] at h'
      cases c with
      | nil => simp [MAX_CACHE_SIZE] at hcap
      | cons q rest =>
          obtain ⟨k0, v0⟩ := q
          simp only [oldestKey] at h'
          by_cases hk0 : k0 = ""
          · rw [if_pos hk0] at h'
            exact h'
          · rw [if_neg hk0] at h'
            exact mem_jsDelete h'
    · rw [if_neg hcap] at h'
      exact h'

theorem goodCache_insert {digest : String → String} {convert : String → ConvOptions → String}
    {s : String} {o : ConvOptions} {c1 : Cache} (hg : GoodCache digest convert c1)
    (hconv : convert s o ≠ "") :
    GoodCache digest convert (setCache (makeCacheKey digest s o) (convert s o) c1) := by
  intro kv hkv
  rcases mem_setCache hkv with h | h
  · exact ⟨s, o, by rw [h], by rw [h], hconv⟩
  · exact hg kv h

theorem handleConvert_step (digest : String → String) (convert : String → ConvOptions → String)
    (hdig : Function.Injective digest) (req : ConvReq) (c : Cache)
    (hgood : GoodCache digest convert c) :
    (handleConvert digest convert req c).1.result = specConvResult convert req.svg req.options
    ∧ GoodCache digest convert (handleConvert digest convert req c).2 := by
  obtain ⟨s, o, b⟩ := req
  cases b with
  | false =>
      by_cases hconv : convert s o = ""
      · constructor
        · simp [handleConvert, hconv, specConvResult]
        · simpa [handleConvert, hconv] using hgood
      · constructor
        · simp [handleConvert, hconv, specConvResult]
        · simpa [handleConvert, hconv] using goodCache_insert hgood hconv
  | true =>
      cases hget : jsGet (makeCacheKey digest s o) c with
      | none =>
          by_cases hconv : convert s o = ""
          · constructor
            · simp [handleConvert, getCached, hget, hconv, specConvResult]
            · simpa [handleConvert, getCached, hget, hconv] using hgood
          · constructor
            · simp [handleConvert, getCached, hget, hconv, specConvResult]
            · simpa [handleConvert, getCached, hget, hconv] using goodCache_insert hgood hconv
      | some v =>
          by_cases hv : v = ""
          · by_cases hconv : convert s o = ""
            · constructor
              · simp [handleConvert, getCached, hget, hv, hconv, specConvResult]
              · simpa [handleConvert, getCached, hget, hv, hconv] using hgood
            · constructor
              · simp [handleConvert, getCached, hget, hv, hconv, specConvResult]
              · simpa [handleConvert, getCached, hget, hv, hconv] using goodCache_insert hgood hconv
          · obtain ⟨s', o', hkey, hval, hne⟩ := hgood _ (jsGet_mem hget)
            obtain ⟨hs, ho⟩ := makeCacheKeyInput_inj s o s' o' (hdig hkey)
            subst hs
            subst ho
            have hval' : v = convert s o := hval
            constructor
            · simp [handleConvert, getCached, hget, hv, specConvResult, hne, hval']
            · intro kv hkv
              simp [handleConvert, getCached, hget, hv] at hkv
              rcases mem_jsSet hkv with h | h
              · exact ⟨s, o, by rw [h], by rw [h, hval'], hne⟩
              · exact hgood kv (mem_jsDelete h)

theorem runConversions_spec (digest : String → String) (convert : String → ConvOptions → String)
    (hdig : Function.Injective digest) :
    ∀ (rs : List ConvReq) (c : Cache), GoodCache digest convert c →
      (runConversions digest convert rs c).1.map ConvOutcome.result
        = rs.map (fun r => specConvResult convert r.svg r.options) := by
  intro rs
  induction rs with
  | nil => intro c _; simp [runConversions]
  | cons r rs' ih =>
      intro c hgood
      obtain ⟨hres, hgood'⟩ := handleConvert_step digest convert hdig r c hgood
      simp [runConversions, hres, ih _ hgood']

/-- C1: cache behavioral equivalence.  For every sequence of conversion
requests (an SVG text plus resolved option values each), running the tool
with caching enabled and running it with the per-call opt-out produces
identical result text for every request; the cache can only change whether
the converter runs, never the returned XML.  The SHA-256 digest is read as
injective on its input bytes, exactly as the spec does. -/
theorem cache_behavioral_equivalence :
    ∀ (digest : String → String) (convert : String → ConvOptions → String),
      Function.Injective digest →
      ∀ reqs : List (String × ConvOptions),
        ((runConversions digest convert (reqs.map fun q => ⟨q.1, q.2, true⟩) []).1.map
            ConvOutcome.result)
          = ((runConversions digest convert (reqs.map fun q => ⟨q.1, q.2, false⟩) []).1.map
            ConvOutcome.result) := by
  intro digest convert hdig reqs
  have h0 : GoodCache digest convert [] := by
    intro kv hkv
    simp at hkv
  rw [runConversions_spec digest convert hdig _ [] h0,
    runConversions_spec digest convert hdig _ [] h0]
  simp

/-- Witness for C1: one request run both ways from the empty cache, with the
identity digest and a constant converter. -/
theorem cache_behavioral_equivalence_witness :
    ((runConversions id (fun _ _ => "<vector/>")
        ([("a", ⟨2, false, false, none⟩)].map fun q => (⟨q.1, q.2, true⟩ : ConvReq)) []).1.map
        ConvOutcome.result)
      = ((runConversions id (fun _ _ => "<vector/>")
        ([("a", ⟨2, false, false, none⟩)].map fun q => (⟨q.1, q.2, false⟩ : ConvReq)) []).1.map
        ConvOutcome.result) :=
  cache_behavioral_equivalence id (fun _ _ => "<vector/>") Function.injective_id
    [("a", ⟨2, false, false, none⟩)]
